import Mathlib

/-!
Verification of the modulation-node state-transition engine against its
natural-language specification.  The definitions below are a shallow
embedding of the Rust sources in src/program/src/lib.rs: the account
ledger, the transaction processor, the canonical merkle committer and
the batch committer.  External library primitives (keccak256, secp256k1
recovery, zlib) are taken as function parameters; everything written in
the repository itself is translated directly.
-/

/-- A 20-byte account identifier (alloy Address), modelled as its byte list. -/
abbrev Address := List Nat

/-- One edit operation (struct Data in lib.rs): index, count, value. -/
structure Data where
  index : Nat
  count : Nat
  value : List Char
deriving DecidableEq

/-- struct Transaction in lib.rs: to, version, data, nonce, extra. -/
structure Transaction where
  «to» : Address
  version : Nat
  data : List Data
  nonce : Nat
  extra : List Char
deriving DecidableEq

/-- struct SignedTransaction in lib.rs: tx plus (r, s, odd_y_parity). -/
structure SignedTransaction where
  tx : Transaction
  r : Nat
  s : Nat
  odd_y_parity : Bool
deriving DecidableEq

/-- struct Account in lib.rs: nonce (u64), data (String), contributors. -/
structure Account where
  nonce : Nat
  data : List Char
  contributors : List Address
deriving DecidableEq

/-- Account::default(): zero nonce, empty document, no contributors. -/
def Account.default : Account := ⟨0, [], []⟩

/-- The in-memory account store, as the association list enumerated by the
backing hash map (key order models the map iteration order). -/
abbrev DB := List (Address × Account)

/-- InMemoryDB::get_account: clone the stored account, or Default on miss. -/
def get_account : DB → Address → Account
  | [], _ => Account.default
  | (k, v) :: rest, a => if k = a then v else get_account rest a

/-- InMemoryDB::set_account: HashMap::insert, overwriting any previous value. -/
def set_account : DB → Address → Account → DB
  | [], a, acc => [(a, acc)]
  | (k, v) :: rest, a, acc =>
      if k = a then (a, acc) :: rest else (k, v) :: set_account rest a acc

/-- The u64 modulus for the release-mode wrap of the nonce increment. -/
def U64 : Nat := 2 ^ 64

/-- Vec::splice(index..index, value): insert before index; Rust panics when
index exceeds the vector length, modelled as none. -/
def splice_insert (cs : List Char) (index : Nat) (value : List Char) : Option (List Char) :=
  if index ≤ cs.length then some (cs.take index ++ value ++ cs.drop index) else none

/-- Vec::drain(index..index+count): delete count elements at index; Rust
panics when the range end exceeds the length, modelled as none. -/
def drain_range (cs : List Char) (index count : Nat) : Option (List Char) :=
  if index + count ≤ cs.length then some (cs.take index ++ cs.drop (index + count)) else none

/-- One iteration of the edit loop in apply_transaction: count 0 means
insert the value before index, any other count deletes count characters. -/
def apply_edit (cs : List Char) (d : Data) : Option (List Char) :=
  match d.count with
  | 0 => splice_insert cs d.index d.value
  | _ + 1 => drain_range cs d.index d.count

/-- The edit loop of apply_transaction: each edit is applied to the document
produced by the previous one; a panic aborts the whole loop. -/
def apply_edits : List Char → List Data → Option (List Char)
  | cs, [] => some cs
  | cs, d :: ds =>
      match apply_edit cs d with
      | none => none
      | some cs2 => apply_edits cs2 ds

/-- The recoverable errors apply_transaction can return: signature recovery
failure, and the stale-nonce rejection. -/
inductive TxError where
  | auth : TxError
  | nonce : TxError
deriving DecidableEq

/-- Outcome of one apply_transaction call: a new ledger on success, a
recoverable error, or a Rust panic (process abort, no Result returned). -/
inductive ApplyResult where
  | ok : DB → ApplyResult
  | err : TxError → ApplyResult
  | panic : ApplyResult
deriving DecidableEq

/-- CanvasProcessor::apply_transaction, parameterised by the secp256k1
address-recovery function (recover_address_from_tx wraps an external
library; a recovery failure is the authentication error).  The body follows
lib.rs lines 74-116: recover the sender, load both accounts, reject stale
nonces, increment the sender nonce, run the edit loop on the recipient
document, append the sender to the recipient contributors when absent, then
write back the sender account followed by the recipient account. -/
def apply_transaction (recover : SignedTransaction → Option Address)
    (db : DB) (input : SignedTransaction) : ApplyResult :=
  match recover input with
  | none => .err .auth
  | some from_address =>
    let tx := input.tx
    let to_address := tx.«to»
    let from_account := get_account db from_address
    let to_account := get_account db to_address
    if tx.nonce < from_account.nonce then .err .nonce
    else
      let from_account2 : Account :=
        { from_account with nonce := (from_account.nonce + 1) % U64 }
      match apply_edits to_account.data tx.data with
      | none => .panic
      | some new_data =>
        let to_account2 : Account := { to_account with data := new_data }
        let to_account3 : Account :=
          if from_address ∈ to_account2.contributors then to_account2
          else { to_account2 with contributors := to_account2.contributors ++ [from_address] }
        .ok (set_account (set_account db from_address from_account2) to_address to_account3)

/-- The ledger the processor holds after a call: the updated store on
success, the untouched store when an error was returned. -/
def resulting_db (db : DB) (r : ApplyResult) : DB :=
  match r with
  | .ok db2 => db2
  | _ => db

/-- The batch loop of main.rs: transactions applied strictly in order, the
first failure aborting the run. -/
def apply_batch (recover : SignedTransaction → Option Address) :
    DB → List SignedTransaction → ApplyResult
  | db, [] => .ok db
  | db, t :: rest =>
      match apply_transaction recover db t with
      | .ok db2 => apply_batch recover db2 rest
      | r => r

/-- Reading a key just written returns the written account. -/
theorem get_set_same (db : DB) (a : Address) (acc : Account) :
    get_account (set_account db a acc) a = acc := by
  induction db with
  | nil => simp [set_account, get_account]
  | cons p rest ih =>
      obtain ⟨k, v⟩ := p
      by_cases h : k = a
      · simp [set_account, get_account, h]
      · simp [set_account, get_account, h, ih]

/-- Writing one key leaves every other key unchanged. -/
theorem get_set_other (db : DB) (a b : Address) (acc : Account) (h : a ≠ b) :
    get_account (set_account db a acc) b = get_account db b := by
  induction db with
  | nil => simp [set_account, get_account, h]
  | cons p rest ih =>
      obtain ⟨k, v⟩ := p
      by_cases hk : k = a
      · subst hk
        simp [set_account, get_account, h]
      · simp [set_account, get_account, hk, ih]

/-- Unfolding equation for apply_transaction once the sender is recovered. -/
theorem apply_transaction_eq (recover : SignedTransaction → Option Address)
    (db : DB) (input : SignedTransaction) (S : Address)
    (hrec : recover input = some S) :
    apply_transaction recover db input =
      (if input.tx.nonce < (get_account db S).nonce then ApplyResult.err .nonce
       else
        match apply_edits (get_account db input.tx.«to»).data input.tx.data with
        | none => ApplyResult.panic
        | some new_data =>
          ApplyResult.ok (set_account
            (set_account db S
              { get_account db S with nonce := ((get_account db S).nonce + 1) % U64 })
            input.tx.«to»
            (if S ∈ (get_account db input.tx.«to»).contributors
             then { get_account db input.tx.«to» with data := new_data }
             else ⟨(get_account db input.tx.«to»).nonce, new_data,
                    (get_account db input.tx.«to»).contributors ++ [S]⟩))) := by
  unfold apply_transaction
  rw [hrec]

/-- A successful apply_transaction call determines the new ledger: edits
succeeded, the nonce check passed, and the result is the sender write-back
followed by the recipient write-back. -/
theorem apply_ok_shape (recover : SignedTransaction → Option Address)
    {db : DB} {input : SignedTransaction} {S : Address} {db2 : DB}
    (hrec : recover input = some S)
    (hok : apply_transaction recover db input = .ok db2) :
    ∃ new_data,
      apply_edits (get_account db input.tx.«to»).data input.tx.data = some new_data ∧
      ¬ input.tx.nonce < (get_account db S).nonce ∧
      db2 = set_account
          (set_account db S
            { get_account db S with nonce := ((get_account db S).nonce + 1) % U64 })
          input.tx.«to»
          (if S ∈ (get_account db input.tx.«to»).contributors
           then { get_account db input.tx.«to» with data := new_data }
           else ⟨(get_account db input.tx.«to»).nonce, new_data,
                  (get_account db input.tx.«to»).contributors ++ [S]⟩) := by
  rw [apply_transaction_eq recover db input S hrec] at hok
  by_cases hn : input.tx.nonce < (get_account db S).nonce
  · rw [if_pos hn] at hok
    exact absurd hok (by simp)
  · rw [if_neg hn] at hok
    cases he : apply_edits (get_account db input.tx.«to»).data input.tx.data with
    | none => rw [he] at hok; exact absurd hok (by simp)
    | some nd =>
        rw [he] at hok
        simp only [ApplyResult.ok.injEq] at hok
        exact ⟨nd, rfl, hn, hok.symm⟩

/-- After a successful non-self-send, the sender nonce was bumped (mod u64). -/
theorem apply_ok_nonce_step (recover : SignedTransaction → Option Address)
    {db : DB} {input : SignedTransaction} {S : Address} {db2 : DB}
    (hrec : recover input = some S) (hne : input.tx.«to» ≠ S)
    (hok : apply_transaction recover db input = .ok db2) :
    (get_account db2 S).nonce = ((get_account db S).nonce + 1) % U64 := by
  obtain ⟨nd, _, _, hdb⟩ := apply_ok_shape recover hrec hok
  subst hdb
  rw [get_set_other _ _ _ _ hne, get_set_same]

/-- One successful application changes any given account's contributor list
either not at all, or by appending one address not already present. -/
theorem apply_contrib_step (recover : SignedTransaction → Option Address)
    {db : DB} {input : SignedTransaction} {db2 : DB}
    (hok : apply_transaction recover db input = .ok db2) (a : Address) :
    (get_account db2 a).contributors = (get_account db a).contributors ∨
    ∃ S2, S2 ∉ (get_account db a).contributors ∧
      (get_account db2 a).contributors = (get_account db a).contributors ++ [S2] := by
  cases hrec : recover input with
  | none =>
      unfold apply_transaction at hok
      rw [hrec] at hok
      exact absurd hok (by simp)
  | some S =>
      obtain ⟨nd, _, _, hdb⟩ := apply_ok_shape recover hrec hok
      subst hdb
      by_cases hat : input.tx.«to» = a
      · subst hat
        rw [get_set_same]
        by_cases hm : S ∈ (get_account db input.tx.«to»).contributors
        · left; rw [if_pos hm]
        · right; exact ⟨S, hm, by rw [if_neg hm]⟩
      · rw [get_set_other _ _ _ _ hat]
        by_cases has : S = a
        · subst has
          rw [get_set_same]
          left; rfl
        · rw [get_set_other _ _ _ _ has]
          left; rfl

/-- Over a successfully applied batch, every contributor list only ever grows
at the tail, and a duplicate-free list stays duplicate-free. -/
theorem apply_batch_contrib (recover : SignedTransaction → Option Address)
    (txs : List SignedTransaction) :
    ∀ db db2, apply_batch recover db txs = .ok db2 → ∀ a,
      ∃ ext, (get_account db2 a).contributors = (get_account db a).contributors ++ ext ∧
        ((get_account db a).contributors.Nodup → (get_account db2 a).contributors.Nodup) := by
  induction txs with
  | nil =>
      intro db db2 h a
      simp only [apply_batch, ApplyResult.ok.injEq] at h
      subst h
      exact ⟨[], by simp, fun hd => hd⟩
  | cons t rest ih =>
      intro db db2 h a
      simp only [apply_batch] at h
      cases hstep : apply_transaction recover db t with
      | ok db1 =>
          rw [hstep] at h
          obtain ⟨ext2, he2, hn2⟩ := ih db1 db2 h a
          rcases apply_contrib_step recover hstep a with hu | ⟨S2, hS2, happ⟩
          · exact ⟨ext2, by rw [he2, hu], fun hd => hn2 (by rw [hu]; exact hd)⟩
          · refine ⟨S2 :: ext2, by rw [he2, happ, List.append_assoc]; rfl, fun hd => hn2 ?_⟩
            rw [happ, List.nodup_append]
            refine ⟨hd, by simp, ?_⟩
            intro x hx hx2
            simp only [List.mem_singleton] at hx2
            subst hx2
            exact hS2 hx
      | err e => rw [hstep] at h; exact absurd h (by simp)
      | panic => rw [hstep] at h; exact absurd h (by simp)

/-- Over a batch of successful sends from one sender S, none of them
self-sends, the sender's nonce grows by exactly the number of transactions
(all nonces staying below the u64 bound). -/
theorem apply_batch_nonce (recover : SignedTransaction → Option Address)
    (S : Address) (txs : List SignedTransaction) :
    ∀ db db2, (∀ t ∈ txs, recover t = some S ∧ t.tx.«to» ≠ S) →
      (get_account db S).nonce + txs.length < U64 →
      apply_batch recover db txs = .ok db2 →
      (get_account db2 S).nonce = (get_account db S).nonce + txs.length := by
  induction txs with
  | nil =>
      intro db db2 _ _ h
      simp only [apply_batch, ApplyResult.ok.injEq] at h
      subst h
      simp
  | cons t rest ih =>
      intro db db2 hall hbound h
      simp only [apply_batch] at h
      cases hstep : apply_transaction recover db t with
      | ok db1 =>
          rw [hstep] at h
          obtain ⟨hrec, hne⟩ := hall t (List.mem_cons_self t rest)
          have hstep1 : (get_account db1 S).nonce = ((get_account db S).nonce + 1) % U64 :=
            apply_ok_nonce_step recover hrec hne hstep
          have hlt : (get_account db S).nonce + 1 < U64 := by
            simp only [List.length_cons] at hbound
            omega
          have hstep1' : (get_account db1 S).nonce = (get_account db S).nonce + 1 := by
            rw [hstep1, Nat.mod_eq_of_lt hlt]
          have hrest := ih db1 db2 (fun t2 ht2 => hall t2 (List.mem_cons_of_mem t ht2))
            (by rw [hstep1']; simp only [List.length_cons] at hbound; omega) h
          rw [hrest, hstep1']
          simp only [List.length_cons]
          omega
      | err e => rw [hstep] at h; exact absurd h (by simp)
      | panic => rw [hstep] at h; exact absurd h (by simp)

/-- C1: code-bug witness — a successful self-send (sender = recipient = the
account [1], starting from the default account) ends with the account's data
and contributors updated but its nonce still 0: the recipient write-back in
apply_transaction overwrote the sender write-back carrying the nonce
increment, so the mutations are not merged into one record. -/
theorem c1_self_send_write_back_lost :
    apply_transaction (fun _ => some [1]) []
        ⟨⟨[1], 0, [⟨0, 0, ['h','i']⟩], 0, []⟩, 0, 0, false⟩ =
      .ok [([1], ⟨0, ['h','i'], [[1]]⟩)] ∧
    (get_account [([1], ⟨0, ['h','i'], [[1]]⟩)] [1]).nonce ≠ 0 + 1 := by decide

/-- C2: code-bug witness — an edit whose index (5) exceeds the recipient
document length (0) drives apply_transaction into the Vec::splice bounds
panic, aborting the process, instead of returning a recoverable bounds
error. -/
theorem c2_out_of_bounds_panics :
    apply_transaction (fun _ => some [2]) []
        ⟨⟨[2], 0, [⟨5, 0, ['x']⟩], 0, []⟩, 0, 0, false⟩ = .panic := by decide

/-- C3 as stated is false on the code: deleting count 2 characters at index 1
from the document abc yields a, not ac. -/
theorem c3_counterexample :
    apply_edits ['a','b','c'] [⟨1, 2, []⟩] ≠ some ['a','c'] := by decide

/-- C3 (amended): starting from the empty document, inserting abc before
index 0 yields abc, and then deleting count 2 characters starting at index 1
yields a — count 0 inserts the value before index, positive count deletes
count characters starting at index. -/
theorem c3_edit_semantics :
    apply_edits [] [⟨0, 0, ['a','b','c']⟩] = some ['a','b','c'] ∧
    apply_edits ['a','b','c'] [⟨1, 2, []⟩] = some ['a'] := by decide

/-- C4 (amended): with recovered sender S, apply_transaction rejects with the
nonce error exactly when the transaction nonce is strictly below S's current
nonce, such a rejection leaves the ledger untouched, a successful
application whose recipient differs from S bumps S's nonce by exactly one,
and a batch of N successful non-self sends from S adds exactly N to S's
nonce. -/
theorem c4_nonce_rule (recover : SignedTransaction → Option Address) (db : DB)
    (input : SignedTransaction) (S : Address) (txs : List SignedTransaction)
    (hrec : recover input = some S) :
    (apply_transaction recover db input = .err .nonce ↔
      input.tx.nonce < (get_account db S).nonce) ∧
    (apply_transaction recover db input = .err .nonce →
      resulting_db db (apply_transaction recover db input) = db) ∧
    (∀ db2, apply_transaction recover db input = .ok db2 → input.tx.«to» ≠ S →
      (get_account db S).nonce + 1 < U64 →
      (get_account db2 S).nonce = (get_account db S).nonce + 1) ∧
    ((∀ t ∈ txs, recover t = some S ∧ t.tx.«to» ≠ S) →
      (get_account db S).nonce + txs.length < U64 →
      ∀ db2, apply_batch recover db txs = .ok db2 →
        (get_account db2 S).nonce = (get_account db S).nonce + txs.length) := by
  refine ⟨⟨?_, ?_⟩, ?_, ?_, ?_⟩
  · intro h
    by_contra hn
    rw [apply_transaction_eq recover db input S hrec, if_neg hn] at h
    revert h
    cases he : apply_edits (get_account db input.tx.«to»).data input.tx.data <;> simp
  · intro hn
    rw [apply_transaction_eq recover db input S hrec, if_pos hn]
  · intro h
    rw [h]
    rfl
  · intro db2 hok hne hlt
    rw [apply_ok_nonce_step recover hrec hne hok, Nat.mod_eq_of_lt hlt]
  · intro hall hbound db2 hb
    exact apply_batch_nonce recover S txs db db2 hall hbound hb

/-- C4 is refuted on the code as stated by a successful self-send: sender and
recipient are both the account [2] at nonce 5, a transaction with nonce 7 is
accepted, yet the account's nonce afterwards is still 5 rather than 6. -/
theorem c4_counterexample :
    apply_transaction (fun _ => some [2]) [([2], ⟨5, [], []⟩)]
        ⟨⟨[2], 0, [], 7, []⟩, 0, 0, false⟩ = .ok [([2], ⟨5, [], [[2]]⟩)] ∧
    (get_account [([2], ⟨5, [], [[2]]⟩)] [2]).nonce ≠ 5 + 1 := by decide

/-- Witness for c4_nonce_rule at a concrete non-self-send instantiation. -/
theorem c4_nonce_rule_witness :
    (apply_transaction (fun _ => some [3]) [] ⟨⟨[4], 0, [], 0, []⟩, 0, 0, false⟩ =
        .err .nonce ↔
      (⟨⟨[4], 0, [], 0, []⟩, 0, 0, false⟩ : SignedTransaction).tx.nonce <
        (get_account [] [3]).nonce) ∧
    (apply_transaction (fun _ => some [3]) [] ⟨⟨[4], 0, [], 0, []⟩, 0, 0, false⟩ =
        .err .nonce →
      resulting_db []
        (apply_transaction (fun _ => some [3]) [] ⟨⟨[4], 0, [], 0, []⟩, 0, 0, false⟩) = []) ∧
    (∀ db2,
      apply_transaction (fun _ => some [3]) [] ⟨⟨[4], 0, [], 0, []⟩, 0, 0, false⟩ = .ok db2 →
      (⟨⟨[4], 0, [], 0, []⟩, 0, 0, false⟩ : SignedTransaction).tx.«to» ≠ [3] →
      (get_account [] [3]).nonce + 1 < U64 →
      (get_account db2 [3]).nonce = (get_account [] [3]).nonce + 1) ∧
    ((∀ t ∈ [(⟨⟨[4], 0, [], 0, []⟩, 0, 0, false⟩ : SignedTransaction)],
        (fun (_ : SignedTransaction) => some [3]) t = some [3] ∧ t.tx.«to» ≠ [3]) →
      (get_account [] [3]).nonce +
          [(⟨⟨[4], 0, [], 0, []⟩, 0, 0, false⟩ : SignedTransaction)].length < U64 →
      ∀ db2,
        apply_batch (fun _ => some [3]) [] [⟨⟨[4], 0, [], 0, []⟩, 0, 0, false⟩] = .ok db2 →
        (get_account db2 [3]).nonce =
          (get_account [] [3]).nonce +
            [(⟨⟨[4], 0, [], 0, []⟩, 0, 0, false⟩ : SignedTransaction)].length) :=
  c4_nonce_rule (fun _ => some [3]) [] ⟨⟨[4], 0, [], 0, []⟩, 0, 0, false⟩ [3]
    [⟨⟨[4], 0, [], 0, []⟩, 0, 0, false⟩] rfl

/-- C8: apply_transaction appends the recovered sender to the recipient's
contributor list exactly when the sender is absent from it, touches no other
account's contributor list, and over any successfully applied batch every
contributor list only grows at its tail (first-contribution order kept) and
stays duplicate-free whenever the whole starting ledger was. -/
theorem c8_contributors (recover : SignedTransaction → Option Address)
    (db : DB) (input : SignedTransaction) (S : Address)
    (txs : List SignedTransaction) (hrec : recover input = some S) :
    (∀ db2, apply_transaction recover db input = .ok db2 →
      (∀ a, a ≠ input.tx.«to» →
        (get_account db2 a).contributors = (get_account db a).contributors) ∧
      ((get_account db2 input.tx.«to»).contributors =
        if S ∈ (get_account db input.tx.«to»).contributors
        then (get_account db input.tx.«to»).contributors
        else (get_account db input.tx.«to»).contributors ++ [S])) ∧
    (∀ db2, apply_batch recover db txs = .ok db2 →
      (∀ a, ((get_account db a).contributors).Nodup) →
      (∀ a, ∃ ext,
        (get_account db2 a).contributors = (get_account db a).contributors ++ ext) ∧
      (∀ a, ((get_account db2 a).contributors).Nodup)) := by
  constructor
  · intro db2 hok
    obtain ⟨nd, he, hn, hdb⟩ := apply_ok_shape recover hrec hok
    subst hdb
    constructor
    · intro a ha
      rw [get_set_other _ _ _ _ (Ne.symm ha)]
      by_cases has : S = a
      · subst has
        rw [get_set_same]
      · rw [get_set_other _ _ _ _ has]
    · rw [get_set_same]
      by_cases hm : S ∈ (get_account db input.tx.«to»).contributors
      · rw [if_pos hm, if_pos hm]
      · rw [if_neg hm, if_neg hm]
  · intro db2 hb hnod
    constructor
    · intro a
      obtain ⟨ext, hext, _⟩ := apply_batch_contrib recover txs db db2 hb a
      exact ⟨ext, hext⟩
    · intro a
      obtain ⟨ext, hext, hnd⟩ := apply_batch_contrib recover txs db db2 hb a
      exact hnd (hnod a)

/-- Witness for c8_contributors at a concrete instantiation. -/
theorem c8_contributors_witness :
    (∀ db2,
      apply_transaction (fun _ => some [5]) [] ⟨⟨[6], 0, [], 0, []⟩, 0, 0, false⟩ = .ok db2 →
      (∀ a, a ≠ (⟨⟨[6], 0, [], 0, []⟩, 0, 0, false⟩ : SignedTransaction).tx.«to» →
        (get_account db2 a).contributors = (get_account [] a).contributors) ∧
      ((get_account db2
          (⟨⟨[6], 0, [], 0, []⟩, 0, 0, false⟩ : SignedTransaction).tx.«to»).contributors =
        if [5] ∈ (get_account []
            (⟨⟨[6], 0, [], 0, []⟩, 0, 0, false⟩ : SignedTransaction).tx.«to»).contributors
        then (get_account []
            (⟨⟨[6], 0, [], 0, []⟩, 0, 0, false⟩ : SignedTransaction).tx.«to»).contributors
        else (get_account []
            (⟨⟨[6], 0, [], 0, []⟩, 0, 0, false⟩ : SignedTransaction).tx.«to»).contributors
          ++ [[5]])) ∧
    (∀ db2,
      apply_batch (fun _ => some [5]) [] [⟨⟨[6], 0, [], 0, []⟩, 0, 0, false⟩] = .ok db2 →
      (∀ a, ((get_account [] a).contributors).Nodup) →
      (∀ a, ∃ ext,
        (get_account db2 a).contributors = (get_account [] a).contributors ++ ext) ∧
      (∀ a, ((get_account db2 a).contributors).Nodup)) :=
  c8_contributors (fun _ => some [5]) [] ⟨⟨[6], 0, [], 0, []⟩, 0, 0, false⟩ [5]
    [⟨⟨[6], 0, [], 0, []⟩, 0, 0, false⟩] rfl

/-- C10: when the recovered sender S differs from the recipient, a successful
apply_transaction leaves the sender's data and contributors untouched (only
its nonce moves, by the u64-wrapped increment) and leaves the recipient's
nonce untouched. -/
theorem c10_frame (recover : SignedTransaction → Option Address)
    (db : DB) (input : SignedTransaction) (S : Address) (db2 : DB)
    (hrec : recover input = some S) (hne : S ≠ input.tx.«to»)
    (hok : apply_transaction recover db input = .ok db2) :
    (get_account db2 S).data = (get_account db S).data ∧
    (get_account db2 S).contributors = (get_account db S).contributors ∧
    (get_account db2 S).nonce = ((get_account db S).nonce + 1) % U64 ∧
    (get_account db2 input.tx.«to»).nonce = (get_account db input.tx.«to»).nonce := by
  obtain ⟨nd, he, hn, hdb⟩ := apply_ok_shape recover hrec hok
  subst hdb
  refine ⟨?_, ?_, ?_, ?_⟩
  · rw [get_set_other _ _ _ _ (Ne.symm hne), get_set_same]
  · rw [get_set_other _ _ _ _ (Ne.symm hne), get_set_same]
  · rw [get_set_other _ _ _ _ (Ne.symm hne), get_set_same]
  · rw [get_set_same]
    by_cases hm : S ∈ (get_account db input.tx.«to»).contributors
    · rw [if_pos hm]
    · rw [if_neg hm]

/-- Witness for c10_frame at a concrete non-self-send instantiation. -/
theorem c10_frame_witness :
    (get_account [([7], ⟨1, [], []⟩), ([8], ⟨0, ['z'], [[7]]⟩)] [7]).data =
      (get_account [] [7]).data ∧
    (get_account [([7], ⟨1, [], []⟩), ([8], ⟨0, ['z'], [[7]]⟩)] [7]).contributors =
      (get_account [] [7]).contributors ∧
    (get_account [([7], ⟨1, [], []⟩), ([8], ⟨0, ['z'], [[7]]⟩)] [7]).nonce =
      ((get_account [] [7]).nonce + 1) % U64 ∧
    (get_account [([7], ⟨1, [], []⟩), ([8], ⟨0, ['z'], [[7]]⟩)]
        (⟨⟨[8], 0, [⟨0, 0, ['z']⟩], 0, []⟩, 0, 0, false⟩ : SignedTransaction).tx.«to»).nonce =
      (get_account []
        (⟨⟨[8], 0, [⟨0, 0, ['z']⟩], 0, []⟩, 0, 0, false⟩ : SignedTransaction).tx.«to»).nonce :=
  c10_frame (fun _ => some [7]) [] ⟨⟨[8], 0, [⟨0, 0, ['z']⟩], 0, []⟩, 0, 0, false⟩ [7]
    [([7], ⟨1, [], []⟩), ([8], ⟨0, ['z'], [[7]]⟩)] rfl (by decide) (by decide)

/-- Rust Ord byte-array comparison (lexicographic, as sorted.sort() and
sort_by(hash.cmp) use it), as a boolean less-or-equal. -/
def le_bytes : List Nat → List Nat → Bool
  | [], _ => true
  | _ :: _, [] => false
  | a :: as2, b :: bs2 => if a < b then true else if b < a then false else le_bytes as2 bs2

/-- le_bytes is total. -/
theorem le_bytes_total (a : List Nat) : ∀ b, (le_bytes a b || le_bytes b a) = true := by
  induction a with
  | nil => intro b; cases b <;> simp [le_bytes]
  | cons x xs ih =>
      intro b
      cases b with
      | nil => simp [le_bytes]
      | cons y ys =>
          simp only [le_bytes]
          by_cases h1 : x < y
          · simp [h1]
          · by_cases h2 : y < x
            · simp [h1, h2]
            · have hxy : x = y := by omega
              subst hxy
              simp [h1, h2, ih ys]

/-- le_bytes is antisymmetric. -/
theorem le_bytes_antisymm (a : List Nat) : ∀ b, le_bytes a b = true → le_bytes b a = true → a = b := by
  induction a with
  | nil =>
      intro b h1 h2
      cases b with
      | nil => rfl
      | cons y ys => simp [le_bytes] at h2
  | cons x xs ih =>
      intro b h1 h2
      cases b with
      | nil => simp [le_bytes] at h1
      | cons y ys =>
          simp only [le_bytes] at h1 h2
          by_cases hxy : x < y
          · rw [if_neg (by omega), if_pos hxy] at h2
            exact absurd h2 (by simp)
          · by_cases hyx : y < x
            · rw [if_neg (by omega), if_pos hyx] at h1
              exact absurd h1 (by simp)
            · have hxy2 : x = y := by omega
              subst hxy2
              have h1' : le_bytes xs ys = true := by simpa [Nat.lt_irrefl] using h1
              have h2' : le_bytes ys xs = true := by simpa [Nat.lt_irrefl] using h2
              rw [ih ys h1' h2']

/-- le_bytes is transitive. -/
theorem le_bytes_trans (a : List Nat) :
    ∀ b c, le_bytes a b = true → le_bytes b c = true → le_bytes a c = true := by
  induction a with
  | nil => intro b c _ _; simp [le_bytes]
  | cons x xs ih =>
      intro b c h1 h2
      cases b with
      | nil => simp [le_bytes] at h1
      | cons y ys =>
          cases c with
          | nil => simp [le_bytes] at h2
          | cons z zs =>
              simp only [le_bytes] at h1 h2 ⊢
              by_cases hxy : x < y
              · by_cases hyz : y < z
                · rw [if_pos (by omega)]
                · by_cases hzy : z < y
                  · rw [if_neg hyz, if_pos hzy] at h2
                    exact absurd h2 (by simp)
                  · have : y = z := by omega
                    subst this
                    rw [if_pos hxy]
              · by_cases hyx : y < x
                · rw [if_neg hxy, if_pos hyx] at h1
                  exact absurd h1 (by simp)
                · have hxy2 : x = y := by omega
                  subst hxy2
                  have h1' : le_bytes xs ys = true := by simpa [Nat.lt_irrefl] using h1
                  by_cases hyz : x < z
                  · rw [if_pos hyz]
                  · by_cases hzy : z < x
                    · rw [if_neg hyz, if_pos hzy] at h2
                      exact absurd h2 (by simp)
                    · have : x = z := by omega
                      subst this
                      have h2' : le_bytes ys zs = true := by simpa [Nat.lt_irrefl] using h2
                      rw [if_neg hyz]
                      simp only [Nat.lt_irrefl, if_false]
                      exact ih ys zs h1' h2'

/-- Keccak256Algorithm::concat_and_hash from lib.rs: with no right sibling
return the left node unchanged; otherwise sort the pair of hashes ascending,
concatenate and hash.  The hash function is a parameter (keccak256 is an
external primitive). -/
def concat_and_hash (keccak : List Nat → List Nat) (left : List Nat)
    (right : Option (List Nat)) : List Nat :=
  match right with
  | none => left
  | some rh => if le_bytes left rh then keccak (left ++ rh) else keccak (rh ++ left)

/-- C5: the pairwise combine rule sorts the two node hashes ascending as
byte arrays before concatenating and hashing, hence it is commutative; and
the combine of a node with no sibling returns that node unchanged, with no
hashing applied. -/
theorem c5_combine_commutative (keccak : List Nat → List Nat) (a b : List Nat) :
    concat_and_hash keccak a (some b) = concat_and_hash keccak b (some a) ∧
    concat_and_hash keccak a none = a := by
  refine ⟨?_, rfl⟩
  simp only [concat_and_hash]
  by_cases h1 : le_bytes a b = true
  · by_cases h2 : le_bytes b a = true
    · rw [if_pos h1, if_pos h2, le_bytes_antisymm a b h1 h2]
    · rw [if_pos h1, if_neg h2]
  · have h2 : le_bytes b a = true := by
      have htot := le_bytes_total a b
      rw [Bool.not_eq_true] at h1
      rw [h1] at htot
      simpa using htot
    rw [if_neg h1, if_pos h2]

/-- A leaf of the state tree (struct Leaf in lib.rs): the account-commit
hash together with the account address. -/
structure Leaf where
  hash : List Nat
  account : Address
deriving DecidableEq

/-- One level of the rs_merkle tree build: hashes are paired in order and
each pair (or the odd node out, paired with none) combined. -/
def build_level (keccak : List Nat → List Nat) : List (List Nat) → List (List Nat)
  | [] => []
  | [a] => [concat_and_hash keccak a none]
  | a :: b :: rest => concat_and_hash keccak a (some b) :: build_level keccak rest

/-- A level is never longer than its input. -/
theorem build_level_length (keccak : List Nat → List Nat) :
    ∀ l : List (List Nat), (build_level keccak l).length ≤ l.length
  | [] => by simp [build_level]
  | [a] => by simp [build_level]
  | a :: b :: rest => by
      simp only [build_level, List.length_cons]
      have := build_level_length keccak rest
      omega

/-- MerkleTree::root: combine levels bottom-up until one hash remains; an
empty tree has no root. -/
def root_aux (keccak : List Nat → List Nat) : List (List Nat) → Option (List Nat)
  | [] => none
  | [a] => some a
  | a :: b :: rest => root_aux keccak (build_level keccak (a :: b :: rest))
termination_by l => l.length
decreasing_by
  simp only [build_level, List.length_cons]
  have := build_level_length keccak rest
  omega

/-- The leaves built by get_merkle_tree before sorting: one per ledger entry
in store iteration order, hash = keccak of the account's canonical (ABI)
encoding; the encoder is a parameter (alloy abi_encode is external). -/
def mk_leaves (keccak : List Nat → List Nat)
    (encode_account : Address → Account → List Nat) (db : DB) : List Leaf :=
  db.map (fun p => ⟨keccak (encode_account p.1 p.2), p.1⟩)

/-- leaves.sort_by(|a, b| a.hash.cmp(&b.hash)): stable sort ascending by
leaf hash. -/
def sort_leaves (leaves : List Leaf) : List Leaf :=
  leaves.mergeSort (fun x y => le_bytes x.hash y.hash)

/-- The hash list handed to MerkleTree::from_leaves by get_merkle_tree. -/
def get_merkle_tree_hashes (keccak : List Nat → List Nat)
    (encode_account : Address → Account → List Nat) (db : DB) : List (List Nat) :=
  (sort_leaves (mk_leaves keccak encode_account db)).map Leaf.hash

/-- CanvasProcessor::generate_state_root: the all-zero 32-byte sentinel for
an empty ledger, otherwise the root of the canonical merkle tree (none
models the .expect panic on a rootless tree, unreachable here). -/
def generate_state_root (keccak : List Nat → List Nat)
    (encode_account : Address → Account → List Nat) (db : DB) : Option (List Nat) :=
  if db.length < 1 then some (List.replicate 32 0)
  else root_aux keccak (get_merkle_tree_hashes keccak encode_account db)

/-- C6: for the ledger with zero accounts, generate_state_root returns
exactly the all-zero 32-byte value. -/
theorem c6_empty_ledger_root (keccak : List Nat → List Nat)
    (encode_account : Address → Account → List Nat) :
    generate_state_root keccak encode_account [] = some (List.replicate 32 0) := rfl

/-- C7: two stores holding the same account mapping, enumerated in any two
orders (a permutation of the key/value pairs), produce the same state root:
the leaves are sorted by leaf hash before the tree is built. -/
theorem c7_root_independent_of_store_order (keccak : List Nat → List Nat)
    (encode_account : Address → Account → List Nat) (db1 db2 : DB)
    (h : db1.Perm db2) :
    generate_state_root keccak encode_account db1 =
      generate_state_root keccak encode_account db2 := by
  have hlen : db1.length = db2.length := h.length_eq
  unfold generate_state_root
  by_cases h0 : db1.length < 1
  · rw [if_pos h0, if_pos (hlen ▸ h0)]
  · rw [if_neg h0, if_neg (hlen ▸ h0)]
    suffices hh : get_merkle_tree_hashes keccak encode_account db1 =
        get_merkle_tree_hashes keccak encode_account db2 by rw [hh]
    haveI : IsAntisymm (List Nat) (fun x y => le_bytes x y = true) :=
      ⟨fun a b => le_bytes_antisymm a b⟩
    have p0 : (mk_leaves keccak encode_account db1).Perm
        (mk_leaves keccak encode_account db2) := h.map _
    have q1 : (sort_leaves (mk_leaves keccak encode_account db1)).Perm
        (mk_leaves keccak encode_account db1) := List.mergeSort_perm _ _
    have q2 : (sort_leaves (mk_leaves keccak encode_account db2)).Perm
        (mk_leaves keccak encode_account db2) := List.mergeSort_perm _ _
    have hperm : (get_merkle_tree_hashes keccak encode_account db1).Perm
        (get_merkle_tree_hashes keccak encode_account db2) :=
      ((q1.trans p0).trans q2.symm).map Leaf.hash
    have hs1 : List.Pairwise (fun x y : Leaf => le_bytes x.hash y.hash = true)
        (sort_leaves (mk_leaves keccak encode_account db1)) :=
      List.sorted_mergeSort
        (fun a b c hab hbc => le_bytes_trans a.hash b.hash c.hash hab hbc)
        (fun a b => le_bytes_total a.hash b.hash) _
    have hs2 : List.Pairwise (fun x y : Leaf => le_bytes x.hash y.hash = true)
        (sort_leaves (mk_leaves keccak encode_account db2)) :=
      List.sorted_mergeSort
        (fun a b c hab hbc => le_bytes_trans a.hash b.hash c.hash hab hbc)
        (fun a b => le_bytes_total a.hash b.hash) _
    exact List.eq_of_perm_of_sorted (r := fun x y => le_bytes x y = true) hperm
      (hs1.map Leaf.hash (fun a b hab => hab))
      (hs2.map Leaf.hash (fun a b hab => hab))

/-- Witness for c7_root_independent_of_store_order on a two-account store
enumerated in both orders. -/
theorem c7_witness :
    generate_state_root (fun l => l) (fun a acc => a ++ [acc.nonce])
        [([1], ⟨0, [], []⟩), ([2], ⟨3, ['a'], []⟩)] =
      generate_state_root (fun l => l) (fun a acc => a ++ [acc.nonce])
        [([2], ⟨3, ['a'], []⟩), ([1], ⟨0, [], []⟩)] :=
  c7_root_independent_of_store_order (fun l => l) (fun a acc => a ++ [acc.nonce])
    [([1], ⟨0, [], []⟩), ([2], ⟨3, ['a'], []⟩)]
    [([2], ⟨3, ['a'], []⟩), ([1], ⟨0, [], []⟩)]
    (List.Perm.swap (([2], ⟨3, ['a'], []⟩) : Address × Account) (([1], ⟨0, [], []⟩) : Address × Account) [])

/-- Minimal big-endian byte string of a natural number, with an explicit
structural fuel (the value itself bounds the number of digits). -/
def be_aux : Nat → Nat → List Nat
  | 0, _ => []
  | fuel + 1, n => if n = 0 then [] else be_aux fuel (n / 256) ++ [n % 256]

/-- Minimal big-endian bytes of n (empty for 0, no leading zero byte). -/
def be_bytes (n : Nat) : List Nat := be_aux n n

/-- be_aux of zero is empty for any fuel. -/
theorem be_aux_zero : ∀ fuel, be_aux fuel 0 = []
  | 0 => rfl
  | _ + 1 => by simp [be_aux]

/-- be_aux does not depend on the fuel once the fuel covers the value. -/
theorem be_aux_eq (fuel : Nat) : ∀ g n, n ≤ fuel → n ≤ g → be_aux fuel n = be_aux g n := by
  induction fuel with
  | zero =>
      intro g n h1 _
      have : n = 0 := by omega
      subst this
      rw [be_aux_zero, be_aux_zero]
  | succ f ih =>
      intro g n h1 h2
      by_cases h0 : n = 0
      · subst h0
        rw [be_aux_zero, be_aux_zero]
      · cases g with
        | zero => omega
        | succ g2 =>
            simp only [be_aux, h0, if_false]
            have hdiv : n / 256 < n := Nat.div_lt_self (by omega) (by omega)
            rw [ih g2 (n / 256) (by omega) (by omega)]

/-- Unfolding equation for be_bytes. -/
theorem be_bytes_eq (n : Nat) :
    be_bytes n = if n = 0 then [] else be_bytes (n / 256) ++ [n % 256] := by
  by_cases h0 : n = 0
  · subst h0
    simp [be_bytes, be_aux]
  · rw [if_neg h0]
    cases n with
    | zero => omega
    | succ m =>
        show be_aux (m + 1) (m + 1) = _
        simp only [be_aux, Nat.succ_ne_zero, if_false]
        have hdiv : (m + 1) / 256 < m + 1 := Nat.div_lt_self (by omega) (by omega)
        rw [be_aux_eq m ((m + 1) / 256) ((m + 1) / 256) (by omega) (by omega)]
        rfl

/-- Big-endian value of a byte string. -/
def from_be (l : List Nat) : Nat := l.foldl (fun acc b => acc * 256 + b) 0

/-- Appending one byte multiplies the value by 256 and adds the byte. -/
theorem from_be_append_byte (l : List Nat) (b : Nat) :
    from_be (l ++ [b]) = from_be l * 256 + b := by
  simp [from_be, List.foldl_append]

/-- from_be inverts be_bytes. -/
theorem from_be_be_bytes (n : Nat) : from_be (be_bytes n) = n := by
  induction n using Nat.strong_induction_on with
  | _ n ih =>
      rw [be_bytes_eq]
      by_cases h0 : n = 0
      · subst h0
        simp [from_be]
      · rw [if_neg h0, from_be_append_byte, ih (n / 256) (Nat.div_lt_self (by omega) (by omega))]
        omega

/-- be_bytes is injective. -/
theorem be_bytes_inj {a b : Nat} (h : be_bytes a = be_bytes b) : a = b := by
  rw [← from_be_be_bytes a, h, from_be_be_bytes]

/-- A value below 256 ^ k needs at most k bytes. -/
theorem be_bytes_len_le (k : Nat) : ∀ n, n < 256 ^ k → (be_bytes n).length ≤ k := by
  induction k with
  | zero =>
      intro n h
      have : n = 0 := by simpa using h
      subst this
      simp [be_bytes, be_aux]
  | succ k ih =>
      intro n h
      rw [be_bytes_eq]
      by_cases h0 : n = 0
      · simp [h0]
      · rw [if_neg h0, List.length_append]
        have hk : n / 256 < 256 ^ k := by
          rw [Nat.div_lt_iff_lt_mul (by omega)]
          calc n < 256 ^ (k + 1) := h
            _ = 256 ^ k * 256 := by rw [Nat.pow_succ]
        have := ih (n / 256) hk
        simp only [List.length_cons, List.length_nil]
        omega

/-- Nonzero values have a nonempty byte string. -/
theorem be_bytes_ne_nil (n : Nat) (h : n ≠ 0) : be_bytes n ≠ [] := by
  rw [be_bytes_eq, if_neg h]
  simp

/-- RLP string-payload header: one byte 0x80+len for short payloads, else
0xB7+lenOfLen followed by the big-endian length. -/
def str_header (n : Nat) : List Nat :=
  if n ≤ 55 then [0x80 + n] else (0xB7 + (be_bytes n).length) :: be_bytes n

/-- RLP list-payload header: one byte 0xC0+len for short payloads, else
0xF7+lenOfLen followed by the big-endian length. -/
def list_header (n : Nat) : List Nat :=
  if n ≤ 55 then [0xC0 + n] else (0xF7 + (be_bytes n).length) :: be_bytes n

/-- RLP encoding of a raw byte string: a single byte below 0x80 stands for
itself, anything else gets a string header. -/
def enc_bytes (bs : List Nat) : List Nat :=
  if bs.length = 1 ∧ bs.headD 0 < 0x80 then bs else str_header bs.length ++ bs

/-- RLP encoding of an unsigned integer (u8/u64/usize/U256 all encode as the
minimal big-endian byte string under the string rules, alloy_rlp). -/
def enc_nat (n : Nat) : List Nat := enc_bytes (be_bytes n)

/-- RLP encoding of a bool (alloy_rlp: 1 for true, 0 for false). -/
def enc_bool (b : Bool) : List Nat := enc_nat (if b then 1 else 0)

/-- UTF-8 bytes of one character (Rust String stores UTF-8; RLP encodes the
raw bytes). -/
def utf8_char (c : Char) : List Nat :=
  if c.toNat < 0x80 then [c.toNat]
  else if c.toNat < 0x800 then [0xC0 + c.toNat / 64, 0x80 + c.toNat % 64]
  else if c.toNat < 0x10000 then
    [0xE0 + c.toNat / 4096, 0x80 + c.toNat / 64 % 64, 0x80 + c.toNat % 64]
  else
    [0xF0 + c.toNat / 262144, 0x80 + c.toNat / 4096 % 64, 0x80 + c.toNat / 64 % 64,
      0x80 + c.toNat % 64]

/-- UTF-8 bytes of a character sequence. -/
def bytes_of_chars : List Char → List Nat
  | [] => []
  | c :: cs => utf8_char c ++ bytes_of_chars cs

/-- RLP encoding of a Rust String: the string rules over its UTF-8 bytes. -/
def enc_string (s : List Char) : List Nat := enc_bytes (bytes_of_chars s)

/-- RLP encoding of struct Data (derive RlpEncodable: a list of the fields
index, count, value in declaration order). -/
def enc_data (d : Data) : List Nat :=
  list_header (enc_nat d.index ++ enc_nat d.count ++ enc_string d.value).length ++
    (enc_nat d.index ++ enc_nat d.count ++ enc_string d.value)

/-- Concatenated encodings of a Data vector's elements. -/
def enc_datas_payload : List Data → List Nat
  | [] => []
  | d :: ds => enc_data d ++ enc_datas_payload ds

/-- RLP encoding of Vec of Data: a list of the element encodings. -/
def enc_data_list (ds : List Data) : List Nat :=
  list_header (enc_datas_payload ds).length ++ enc_datas_payload ds

/-- RLP encoding of struct Transaction (fields to, version, data, nonce,
extra in declaration order). -/
def enc_transaction (t : Transaction) : List Nat :=
  list_header (enc_bytes t.«to» ++ enc_nat t.version ++ enc_data_list t.data ++
      enc_nat t.nonce ++ enc_string t.extra).length ++
    (enc_bytes t.«to» ++ enc_nat t.version ++ enc_data_list t.data ++
      enc_nat t.nonce ++ enc_string t.extra)

/-- RLP encoding of struct SignedTransaction (fields tx, r, s, odd_y_parity). -/
def enc_signed (st : SignedTransaction) : List Nat :=
  list_header (enc_transaction st.tx ++ enc_nat st.r ++ enc_nat st.s ++
      enc_bool st.odd_y_parity).length ++
    (enc_transaction st.tx ++ enc_nat st.r ++ enc_nat st.s ++ enc_bool st.odd_y_parity)

/-- Concatenated encodings of the transaction vector's elements, in the given
order (no sorting). -/
def enc_signed_payload : List SignedTransaction → List Nat
  | [] => []
  | t :: ts => enc_signed t ++ enc_signed_payload ts

/-- RLP encoding of the Vec of SignedTransaction handed to encode() in
generate_transaction_commit. -/
def enc_tx_list (ts : List SignedTransaction) : List Nat :=
  list_header (enc_signed_payload ts).length ++ enc_signed_payload ts

/-- CanvasProcessor::generate_transaction_commit: RLP-encode the ordered
list, deflate it with the pinned zlib configuration, keccak the compressed
bytes.  zlib and keccak are external primitives, taken as parameters. -/
def generate_transaction_commit (zlib keccak : List Nat → List Nat)
    (ts : List SignedTransaction) : List Nat :=
  keccak (zlib (enc_tx_list ts))

/-- Total length of the RLP item starting a byte stream, read from its first
byte (and length bytes where the long forms need them). -/
def item_len : List Nat → Option Nat
  | [] => none
  | b :: rest =>
    if b < 0x80 then some 1
    else if b ≤ 0xB7 then some (1 + (b - 0x80))
    else if b ≤ 0xBF then some (1 + (b - 0xB7) + from_be (rest.take (b - 0xB7)))
    else if b ≤ 0xF7 then some (1 + (b - 0xC0))
    else some (1 + (b - 0xF7) + from_be (rest.take (b - 0xF7)))

/-- Length of the UTF-8 sequence starting a byte stream, from its first byte. -/
def len8 : List Nat → Option Nat
  | [] => none
  | b :: _ =>
    if b < 0x80 then some 1
    else if b < 0xC0 then none
    else if b < 0xE0 then some 2
    else if b < 0xF0 then some 3
    else some 4

/-- Two self-delimiting items starting the same stream coincide, and so do
the remainders. -/
theorem split_by_len (lenf : List Nat → Option Nat) {a b r1 r2 : List Nat}
    (ha : lenf (a ++ r1) = some a.length) (hb : lenf (b ++ r2) = some b.length)
    (heq : a ++ r1 = b ++ r2) : a = b ∧ r1 = r2 := by
  rw [heq, hb] at ha
  injection ha with hl
  exact List.append_inj heq hl.symm

/-- item_len reads a short or long string header back as the full item
length (string payloads below 2^64 bytes). -/
theorem item_len_str (n : Nat) (bs rest : List Nat) (hn : n < 2 ^ 64) :
    item_len (str_header n ++ (bs ++ rest)) = some ((str_header n).length + n) := by
  by_cases h : n ≤ 55
  · rw [str_header, if_pos h]
    show item_len ((0x80 + n) :: (bs ++ rest)) = _
    simp only [item_len]
    rw [if_neg (by omega), if_pos (by omega)]
    simp only [List.length_cons, List.length_nil, Option.some.injEq]
    omega
  · rw [str_header, if_neg h]
    have h0 : n ≠ 0 := by omega
    have hpos : 0 < (be_bytes n).length := List.length_pos.mpr (be_bytes_ne_nil n h0)
    have h8 : (be_bytes n).length ≤ 8 := by
      refine be_bytes_len_le 8 n ?_
      calc n < 2 ^ 64 := hn
        _ = 256 ^ 8 := by norm_num
    show item_len ((0xB7 + (be_bytes n).length) :: (be_bytes n ++ (bs ++ rest))) = _
    simp only [item_len]
    rw [if_neg (by omega), if_neg (by omega), if_pos (by omega)]
    have heq2 : 0xB7 + (be_bytes n).length - 0xB7 = (be_bytes n).length := by omega
    rw [heq2, List.take_left, from_be_be_bytes]
    simp only [List.length_cons, Option.some.injEq]
    omega

/-- item_len reads a short or long list header back as the full item length. -/
theorem item_len_list (n : Nat) (bs rest : List Nat) :
    item_len (list_header n ++ (bs ++ rest)) = some ((list_header n).length + n) := by
  by_cases h : n ≤ 55
  · rw [list_header, if_pos h]
    show item_len ((0xC0 + n) :: (bs ++ rest)) = _
    simp only [item_len]
    rw [if_neg (by omega), if_neg (by omega), if_neg (by omega), if_pos (by omega)]
    simp only [List.length_cons, List.length_nil, Option.some.injEq]
    omega
  · rw [list_header, if_neg h]
    have h0 : n ≠ 0 := by omega
    have hpos : 0 < (be_bytes n).length := List.length_pos.mpr (be_bytes_ne_nil n h0)
    show item_len ((0xF7 + (be_bytes n).length) :: (be_bytes n ++ (bs ++ rest))) = _
    simp only [item_len]
    rw [if_neg (by omega), if_neg (by omega), if_neg (by omega), if_neg (by omega)]
    have heq2 : 0xF7 + (be_bytes n).length - 0xF7 = (be_bytes n).length := by omega
    rw [heq2, List.take_left, from_be_be_bytes]
    simp only [List.length_cons, Option.some.injEq]
    omega

/-- item_len is exact on an encoded byte string followed by anything. -/
theorem item_len_enc_bytes (bs rest : List Nat) (h : bs.length < 2 ^ 64) :
    item_len (enc_bytes bs ++ rest) = some (enc_bytes bs).length := by
  rw [enc_bytes]
  by_cases hc : bs.length = 1 ∧ bs.headD 0 < 0x80
  · rw [if_pos hc]
    obtain ⟨h1, h2⟩ := hc
    cases bs with
    | nil => simp at h1
    | cons b tl =>
        cases tl with
        | nil =>
            simp only [List.headD] at h2
            show item_len (b :: rest) = _
            simp only [item_len]
            rw [if_pos h2]
            rfl
        | cons c tl2 => simp at h1
  · rw [if_neg hc, List.append_assoc, item_len_str bs.length bs rest h,
      List.length_append]

/-- item_len is exact on an encoded unsigned integer below 2^256. -/
theorem item_len_enc_nat (n : Nat) (rest : List Nat) (h : n < 2 ^ 256) :
    item_len (enc_nat n ++ rest) = some (enc_nat n).length := by
  rw [enc_nat]
  refine item_len_enc_bytes (be_bytes n) rest ?_
  have : (be_bytes n).length ≤ 32 := by
    refine be_bytes_len_le 32 n ?_
    calc n < 2 ^ 256 := h
      _ = 256 ^ 32 := by norm_num
  omega

/-- item_len is exact on an encoded bool. -/
theorem item_len_enc_bool (b : Bool) (rest : List Nat) :
    item_len (enc_bool b ++ rest) = some (enc_bool b).length := by
  refine item_len_enc_nat _ rest ?_
  cases b <;> norm_num

/-- item_len is exact on an encoded string of fewer than 2^64 UTF-8 bytes. -/
theorem item_len_enc_string (s : List Char) (rest : List Nat)
    (h : (bytes_of_chars s).length < 2 ^ 64) :
    item_len (enc_string s ++ rest) = some (enc_string s).length :=
  item_len_enc_bytes (bytes_of_chars s) rest h

/-- item_len is exact on any list-header-wrapped payload. -/
theorem item_len_list_wrap (p rest : List Nat) :
    item_len ((list_header p.length ++ p) ++ rest) =
      some (list_header p.length ++ p).length := by
  rw [List.append_assoc, item_len_list p.length p rest, List.length_append]

/-- item_len is exact on an encoded Data struct. -/
theorem item_len_enc_data (d : Data) (rest : List Nat) :
    item_len (enc_data d ++ rest) = some (enc_data d).length := by
  rw [enc_data]
  exact item_len_list_wrap _ _

/-- item_len is exact on an encoded Transaction. -/
theorem item_len_enc_transaction (t : Transaction) (rest : List Nat) :
    item_len (enc_transaction t ++ rest) = some (enc_transaction t).length := by
  rw [enc_transaction]
  exact item_len_list_wrap _ _

/-- item_len is exact on an encoded SignedTransaction. -/
theorem item_len_enc_signed (st : SignedTransaction) (rest : List Nat) :
    item_len (enc_signed st ++ rest) = some (enc_signed st).length := by
  rw [enc_signed]
  exact item_len_list_wrap _ _

/-- The UTF-8 bytes of a character are never empty. -/
theorem utf8_char_ne_nil (c : Char) : utf8_char c ≠ [] := by
  rw [utf8_char]
  split_ifs <;> simp

/-- len8 reads a character's UTF-8 bytes back as their exact length. -/
theorem len8_utf8 (c : Char) (rest : List Nat) :
    len8 (utf8_char c ++ rest) = some (utf8_char c).length := by
  rw [utf8_char]
  by_cases h1 : c.toNat < 0x80
  · rw [if_pos h1]
    show len8 (c.toNat :: rest) = _
    simp only [len8]
    rw [if_pos h1]
    rfl
  · rw [if_neg h1]
    by_cases h2 : c.toNat < 0x800
    · rw [if_pos h2]
      show len8 ((0xC0 + c.toNat / 64) :: _) = _
      simp only [len8]
      rw [if_neg (by omega), if_neg (by omega), if_pos (by omega)]
      rfl
    · rw [if_neg h2]
      by_cases h3 : c.toNat < 0x10000
      · rw [if_pos h3]
        show len8 ((0xE0 + c.toNat / 4096) :: _) = _
        simp only [len8]
        rw [if_neg (by omega), if_neg (by omega), if_neg (by omega), if_pos (by omega)]
        rfl
      · rw [if_neg h3]
        show len8 ((0xF0 + c.toNat / 262144) :: _) = _
        simp only [len8]
        rw [if_neg (by omega), if_neg (by omega), if_neg (by omega), if_neg (by omega)]
        rfl

/-- UTF-8 encoding of a single character is injective. -/
theorem utf8_char_inj {c1 c2 : Char} (h : utf8_char c1 = utf8_char c2) : c1 = c2 := by
  have hn : c1.toNat = c2.toNat := by
    unfold utf8_char at h
    split_ifs at h <;> simp only [List.cons.injEq, and_true] at h <;> omega
  exact Char.ext (UInt32.ext hn)

/-- UTF-8 encoding of a character sequence is injective. -/
theorem bytes_of_chars_inj : ∀ {s1 s2 : List Char},
    bytes_of_chars s1 = bytes_of_chars s2 → s1 = s2 := by
  intro s1
  induction s1 with
  | nil =>
      intro s2 h
      cases s2 with
      | nil => rfl
      | cons d ds =>
          exfalso
          simp only [bytes_of_chars] at h
          exact utf8_char_ne_nil d (List.append_eq_nil.mp h.symm).1
  | cons c cs ih =>
      intro s2 h
      cases s2 with
      | nil =>
          exfalso
          simp only [bytes_of_chars] at h
          exact utf8_char_ne_nil c (List.append_eq_nil.mp h).1
      | cons d ds =>
          simp only [bytes_of_chars] at h
          obtain ⟨he, hr⟩ := split_by_len len8 (len8_utf8 c _) (len8_utf8 d _) h
          rw [utf8_char_inj he, ih hr]

/-- Headers are never empty. -/
theorem list_header_ne_nil (n : Nat) : list_header n ≠ [] := by
  unfold list_header
  split_ifs <;> simp

/-- A struct encoding is never empty. -/
theorem enc_data_ne_nil (d : Data) : enc_data d ≠ [] := by
  unfold enc_data
  intro hh
  exact list_header_ne_nil _ (List.append_eq_nil.mp hh).1

/-- A string header followed by its payload determines both. -/
theorem str_header_append_inj {n1 n2 : Nat} {p1 p2 : List Nat}
    (h : str_header n1 ++ p1 = str_header n2 ++ p2) : n1 = n2 ∧ p1 = p2 := by
  unfold str_header at h
  by_cases h1 : n1 ≤ 55 <;> by_cases h2 : n2 ≤ 55
  · rw [if_pos h1, if_pos h2] at h
    simp only [List.cons_append, List.nil_append, List.cons.injEq] at h
    exact ⟨by omega, h.2⟩
  · rw [if_pos h1, if_neg h2] at h
    exfalso
    have hpos : 0 < (be_bytes n2).length := List.length_pos.mpr (be_bytes_ne_nil n2 (by omega))
    simp only [List.cons_append, List.nil_append, List.cons.injEq] at h
    omega
  · rw [if_neg h1, if_pos h2] at h
    exfalso
    have hpos : 0 < (be_bytes n1).length := List.length_pos.mpr (be_bytes_ne_nil n1 (by omega))
    simp only [List.cons_append, List.nil_append, List.cons.injEq] at h
    omega
  · rw [if_neg h1, if_neg h2] at h
    simp only [List.cons_append, List.cons.injEq] at h
    obtain ⟨ha, hb⟩ := h
    have hll : (be_bytes n1).length = (be_bytes n2).length := by omega
    obtain ⟨hbe, hp⟩ := List.append_inj hb hll
    exact ⟨be_bytes_inj hbe, hp⟩

/-- A list header followed by its payload determines both. -/
theorem list_header_append_inj {n1 n2 : Nat} {p1 p2 : List Nat}
    (h : list_header n1 ++ p1 = list_header n2 ++ p2) : n1 = n2 ∧ p1 = p2 := by
  unfold list_header at h
  by_cases h1 : n1 ≤ 55 <;> by_cases h2 : n2 ≤ 55
  · rw [if_pos h1, if_pos h2] at h
    simp only [List.cons_append, List.nil_append, List.cons.injEq] at h
    exact ⟨by omega, h.2⟩
  · rw [if_pos h1, if_neg h2] at h
    exfalso
    have hpos : 0 < (be_bytes n2).length := List.length_pos.mpr (be_bytes_ne_nil n2 (by omega))
    simp only [List.cons_append, List.nil_append, List.cons.injEq] at h
    omega
  · rw [if_neg h1, if_pos h2] at h
    exfalso
    have hpos : 0 < (be_bytes n1).length := List.length_pos.mpr (be_bytes_ne_nil n1 (by omega))
    simp only [List.cons_append, List.nil_append, List.cons.injEq] at h
    omega
  · rw [if_neg h1, if_neg h2] at h
    simp only [List.cons_append, List.cons.injEq] at h
    obtain ⟨ha, hb⟩ := h
    have hll : (be_bytes n1).length = (be_bytes n2).length := by omega
    obtain ⟨hbe, hp⟩ := List.append_inj hb hll
    exact ⟨be_bytes_inj hbe, hp⟩

/-- Equal list-wrapped encodings have equal payloads. -/
theorem list_wrap_inj {p1 p2 : List Nat}
    (h : list_header p1.length ++ p1 = list_header p2.length ++ p2) : p1 = p2 :=
  (list_header_append_inj h).2

/-- The byte-string encoder is injective. -/
theorem enc_bytes_inj {bs1 bs2 : List Nat} (h : enc_bytes bs1 = enc_bytes bs2) :
    bs1 = bs2 := by
  unfold enc_bytes at h
  by_cases c1 : bs1.length = 1 ∧ bs1.headD 0 < 0x80 <;>
    by_cases c2 : bs2.length = 1 ∧ bs2.headD 0 < 0x80
  · rw [if_pos c1, if_pos c2] at h
    exact h
  · rw [if_pos c1, if_neg c2] at h
    exfalso
    obtain ⟨hl1, hh1⟩ := c1
    cases bs1 with
    | nil => simp at hl1
    | cons b tl =>
        cases tl with
        | cons x xs => simp at hl1
        | nil =>
            simp only [List.headD] at hh1
            unfold str_header at h
            by_cases hs : bs2.length ≤ 55
            · rw [if_pos hs] at h
              simp only [List.cons_append, List.nil_append, List.cons.injEq] at h
              omega
            · rw [if_neg hs] at h
              simp only [List.cons_append, List.cons.injEq] at h
              have hpos : 0 < (be_bytes bs2.length).length :=
                List.length_pos.mpr (be_bytes_ne_nil bs2.length (by omega))
              omega
  · rw [if_neg c1, if_pos c2] at h
    exfalso
    obtain ⟨hl2, hh2⟩ := c2
    cases bs2 with
    | nil => simp at hl2
    | cons b tl =>
        cases tl with
        | cons x xs => simp at hl2
        | nil =>
            simp only [List.headD] at hh2
            unfold str_header at h
            by_cases hs : bs1.length ≤ 55
            · rw [if_pos hs] at h
              simp only [List.cons_append, List.nil_append, List.cons.injEq] at h
              omega
            · rw [if_neg hs] at h
              simp only [List.cons_append, List.cons.injEq] at h
              have hpos : 0 < (be_bytes bs1.length).length :=
                List.length_pos.mpr (be_bytes_ne_nil bs1.length (by omega))
              omega
  · rw [if_neg c1, if_neg c2] at h
    exact (str_header_append_inj h).2

/-- The unsigned-integer encoder is injective. -/
theorem enc_nat_inj {a b : Nat} (h : enc_nat a = enc_nat b) : a = b :=
  be_bytes_inj (enc_bytes_inj h)

/-- The string encoder is injective. -/
theorem enc_string_inj {s1 s2 : List Char} (h : enc_string s1 = enc_string s2) :
    s1 = s2 :=
  bytes_of_chars_inj (enc_bytes_inj h)

/-- The bool encoder is injective. -/
theorem enc_bool_inj {a b : Bool} (h : enc_bool a = enc_bool b) : a = b := by
  have := enc_nat_inj h
  cases a <;> cases b <;> simp_all

/-- Well-formedness of an edit as the Rust types enforce it: index and count
are usize (64-bit) and the value string has a usize byte length. -/
abbrev WF_data (d : Data) : Prop :=
  d.index < 2 ^ 64 ∧ d.count < 2 ^ 64 ∧ (bytes_of_chars d.value).length < 2 ^ 64

/-- Well-formedness of a transaction as the Rust types enforce it: a 20-byte
recipient address, a u8 version, a u64 nonce, well-formed edits, and a
usize-length extra string. -/
abbrev WF_transaction (t : Transaction) : Prop :=
  t.«to».length = 20 ∧ t.version < 2 ^ 8 ∧ t.nonce < 2 ^ 64 ∧
  (∀ d ∈ t.data, WF_data d) ∧ (bytes_of_chars t.extra).length < 2 ^ 64

/-- Well-formedness of a signed transaction: r and s are U256 values. -/
abbrev WF_signed (st : SignedTransaction) : Prop :=
  WF_transaction st.tx ∧ st.r < 2 ^ 256 ∧ st.s < 2 ^ 256

/-- u64 values are U256 values. -/
theorem lt_pow256_of_lt_pow64 {n : Nat} (h : n < 2 ^ 64) : n < 2 ^ 256 :=
  Nat.lt_of_lt_of_le h (by norm_num)

/-- u8 values are U256 values. -/
theorem lt_pow256_of_lt_pow8 {n : Nat} (h : n < 2 ^ 8) : n < 2 ^ 256 :=
  Nat.lt_of_lt_of_le h (by norm_num)

/-- The Data encoder is injective on well-formed edits. -/
theorem enc_data_inj {d1 d2 : Data} (h1 : WF_data d1) (h2 : WF_data d2)
    (h : enc_data d1 = enc_data d2) : d1 = d2 := by
  unfold enc_data at h
  have hp := list_wrap_inj h
  simp only [List.append_assoc] at hp
  obtain ⟨hi, hr1⟩ := split_by_len item_len
    (item_len_enc_nat _ _ (lt_pow256_of_lt_pow64 h1.1))
    (item_len_enc_nat _ _ (lt_pow256_of_lt_pow64 h2.1)) hp
  obtain ⟨hc, hv⟩ := split_by_len item_len
    (item_len_enc_nat _ _ (lt_pow256_of_lt_pow64 h1.2.1))
    (item_len_enc_nat _ _ (lt_pow256_of_lt_pow64 h2.2.1)) hr1
  have e1 : d1.index = d2.index := enc_nat_inj hi
  have e2 : d1.count = d2.count := enc_nat_inj hc
  have e3 : d1.value = d2.value := enc_string_inj hv
  cases d1
  cases d2
  simp_all

/-- The concatenated Data-vector payload is injective on well-formed edits. -/
theorem enc_datas_payload_inj : ∀ {ds1 ds2 : List Data},
    (∀ d ∈ ds1, WF_data d) → (∀ d ∈ ds2, WF_data d) →
    enc_datas_payload ds1 = enc_datas_payload ds2 → ds1 = ds2 := by
  intro ds1
  induction ds1 with
  | nil =>
      intro ds2 _ _ h
      cases ds2 with
      | nil => rfl
      | cons d ds =>
          exfalso
          simp only [enc_datas_payload] at h
          exact enc_data_ne_nil d (List.append_eq_nil.mp h.symm).1
  | cons d1 tl1 ih =>
      intro ds2 hw1 hw2 h
      cases ds2 with
      | nil =>
          exfalso
          simp only [enc_datas_payload] at h
          exact enc_data_ne_nil d1 (List.append_eq_nil.mp h).1
      | cons d2 tl2 =>
          simp only [enc_datas_payload] at h
          obtain ⟨he, hr⟩ := split_by_len item_len
            (item_len_enc_data d1 _) (item_len_enc_data d2 _) h
          rw [enc_data_inj (hw1 d1 (List.mem_cons_self d1 tl1))
              (hw2 d2 (List.mem_cons_self d2 tl2)) he,
            ih (fun d hd => hw1 d (List.mem_cons_of_mem d1 hd))
              (fun d hd => hw2 d (List.mem_cons_of_mem d2 hd)) hr]

/-- item_len is exact on an encoded Data vector. -/
theorem item_len_enc_data_list (ds : List Data) (rest : List Nat) :
    item_len (enc_data_list ds ++ rest) = some (enc_data_list ds).length := by
  rw [enc_data_list]
  exact item_len_list_wrap _ _

/-- The Data-vector encoder is injective on well-formed edits. -/
theorem enc_data_list_inj {ds1 ds2 : List Data}
    (hw1 : ∀ d ∈ ds1, WF_data d) (hw2 : ∀ d ∈ ds2, WF_data d)
    (h : enc_data_list ds1 = enc_data_list ds2) : ds1 = ds2 := by
  unfold enc_data_list at h
  exact enc_datas_payload_inj hw1 hw2 (list_wrap_inj h)

/-- The Transaction encoder is injective on well-formed transactions. -/
theorem enc_transaction_inj {t1 t2 : Transaction}
    (h1 : WF_transaction t1) (h2 : WF_transaction t2)
    (h : enc_transaction t1 = enc_transaction t2) : t1 = t2 := by
  unfold enc_transaction at h
  have hp := list_wrap_inj h
  simp only [List.append_assoc] at hp
  obtain ⟨hto, hr1⟩ := split_by_len item_len
    (item_len_enc_bytes _ _ (by rw [h1.1]; norm_num))
    (item_len_enc_bytes _ _ (by rw [h2.1]; norm_num)) hp
  obtain ⟨hv, hr2⟩ := split_by_len item_len
    (item_len_enc_nat _ _ (lt_pow256_of_lt_pow8 h1.2.1))
    (item_len_enc_nat _ _ (lt_pow256_of_lt_pow8 h2.2.1)) hr1
  obtain ⟨hd, hr3⟩ := split_by_len item_len
    (item_len_enc_data_list _ _) (item_len_enc_data_list _ _) hr2
  obtain ⟨hn, hx⟩ := split_by_len item_len
    (item_len_enc_nat _ _ (lt_pow256_of_lt_pow64 h1.2.2.1))
    (item_len_enc_nat _ _ (lt_pow256_of_lt_pow64 h2.2.2.1)) hr3
  have e1 : t1.«to» = t2.«to» := enc_bytes_inj hto
  have e2 : t1.version = t2.version := enc_nat_inj hv
  have e3 : t1.data = t2.data := enc_data_list_inj h1.2.2.2.1 h2.2.2.2.1 hd
  have e4 : t1.nonce = t2.nonce := enc_nat_inj hn
  have e5 : t1.extra = t2.extra := enc_string_inj hx
  cases t1
  cases t2
  simp_all

/-- The SignedTransaction encoder is injective on well-formed transactions. -/
theorem enc_signed_inj {st1 st2 : SignedTransaction}
    (h1 : WF_signed st1) (h2 : WF_signed st2)
    (h : enc_signed st1 = enc_signed st2) : st1 = st2 := by
  unfold enc_signed at h
  have hp := list_wrap_inj h
  simp only [List.append_assoc] at hp
  obtain ⟨ht, hr1⟩ := split_by_len item_len
    (item_len_enc_transaction _ _) (item_len_enc_transaction _ _) hp
  obtain ⟨hrr, hr2⟩ := split_by_len item_len
    (item_len_enc_nat _ _ h1.2.1) (item_len_enc_nat _ _ h2.2.1) hr1
  obtain ⟨hs, hb⟩ := split_by_len item_len
    (item_len_enc_nat _ _ h1.2.2) (item_len_enc_nat _ _ h2.2.2) hr2
  have e1 : st1.tx = st2.tx := enc_transaction_inj h1.1 h2.1 ht
  have e2 : st1.r = st2.r := enc_nat_inj hrr
  have e3 : st1.s = st2.s := enc_nat_inj hs
  have e4 : st1.odd_y_parity = st2.odd_y_parity := enc_bool_inj hb
  cases st1
  cases st2
  simp_all

/-- C9: the batch commitment encodes the transaction list in the given order
(no sorting), so as long as the fixed compress-then-hash pipeline does not
collide on the two encodings, swapping two distinct well-formed transactions
changes the commitment. -/
theorem c9_commit_order_sensitive (zlib keccak : List Nat → List Nat)
    (hinj : ∀ x y, keccak (zlib x) = keccak (zlib y) → x = y)
    (t1 t2 : SignedTransaction)
    (h1 : WF_signed t1) (h2 : WF_signed t2) (hne : t1 ≠ t2) :
    generate_transaction_commit zlib keccak [t1, t2] ≠
      generate_transaction_commit zlib keccak [t2, t1] := by
  intro h
  unfold generate_transaction_commit at h
  have henc := hinj _ _ h
  unfold enc_tx_list at henc
  have hp := list_wrap_inj henc
  simp only [enc_signed_payload, List.append_nil] at hp
  obtain ⟨he, _⟩ := split_by_len item_len
    (item_len_enc_signed t1 _) (item_len_enc_signed t2 _) hp
  exact hne (enc_signed_inj h1 h2 he)

/-- Witness for c9_commit_order_sensitive with the identity compressor and
hash (both injective) on two concrete distinct transactions. -/
theorem c9_commit_order_sensitive_witness :
    generate_transaction_commit (fun x => x) (fun x => x)
        [⟨⟨List.replicate 20 0, 0, [], 0, []⟩, 0, 0, false⟩,
         ⟨⟨List.replicate 20 0, 0, [], 1, []⟩, 0, 0, false⟩] ≠
      generate_transaction_commit (fun x => x) (fun x => x)
        [⟨⟨List.replicate 20 0, 0, [], 1, []⟩, 0, 0, false⟩,
         ⟨⟨List.replicate 20 0, 0, [], 0, []⟩, 0, 0, false⟩] :=
  c9_commit_order_sensitive (fun x => x) (fun x => x) (fun x y hxy => hxy)
    ⟨⟨List.replicate 20 0, 0, [], 0, []⟩, 0, 0, false⟩
    ⟨⟨List.replicate 20 0, 0, [], 1, []⟩, 0, 0, false⟩
    (by decide) (by decide) (by decide)
